import Mathlib

/-!
# Bratley schedule enumeration (`bratley.hpp`)

A shallow embedding of the template metaprogram of `bratley.hpp` and of the
control flow of its executor.

* A C++ type list `std::tuple<Ts...>` is a Lean `List`.
* A template whose instantiation is ill-formed (a hard compile error) has no
  result: such templates return `Option`, and `none` is the compile error.
* `uint32_t` values are natural numbers; the one arithmetic operation of the
  program, the addition in `validate_t::finish`, is taken modulo `2 ^ 32`.
-/

namespace bratley

/-- The status returned by `execute`. -/
inductive execute_status_t where
  | SUCCESS
  | FAILURE
  deriving DecidableEq, Repr

/-- A task class derived from `task_t<Context, Arrival, Cost, Deadline>`.
`id` stands for the identity of the derived class (two classes may share their
three constants); the other fields are the `static constexpr uint32_t`
members. -/
structure task_t where
  id : Nat
  s_arrival : Nat
  s_cost : Nat
  s_deadline : Nat
  deriving DecidableEq, Repr

/-- The three constants of a task are `uint32_t` template arguments. -/
def task_t.is_uint32 (Task : task_t) : Prop :=
  Task.s_arrival < 2 ^ 32 ∧ Task.s_cost < 2 ^ 32 ∧ Task.s_deadline < 2 ^ 32

instance (Task : task_t) : Decidable Task.is_uint32 := by
  unfold task_t.is_uint32; infer_instance

/-- The class `task_schedule_t<Start, Finish, Task>`: a task together with its
start and finish time in one schedule. -/
structure task_schedule_t where
  s_start : Nat
  s_finish : Nat
  Task : task_t
  deriving DecidableEq, Repr

namespace detail

/-- The function `validate_t<Time, Task>::start()`. -/
def validate_t.start (Time : Nat) (Task : task_t) : Nat :=
  if Task.s_arrival > Time then Task.s_arrival else Time

/-- The function `validate_t<Time, Task>::finish()`: a `uint32_t` addition. -/
def validate_t.finish (Time : Nat) (Task : task_t) : Nat :=
  (validate_t.start Time Task + Task.s_cost) % 2 ^ 32

/-- The function `validate_t<Time, Task>::validate()`. -/
def validate_t.validate (Time : Nat) (Task : task_t) : Bool :=
  decide (validate_t.finish Time Task ≤ Task.s_deadline)

/-- The type `join_t<std::tuple<Lhs...>, std::tuple<Rhs...>>::type`. -/
def join_t {α : Type} (TupleLhs TupleRhs : List α) : List α :=
  TupleLhs ++ TupleRhs

/-- The type `concat_t<Tuples...>::type`.  The primary template is declared and never
defined, so `concat_t<>` is an incomplete type; the two-argument
specialisation is the more specialised one for two arguments; the
head/tail specialisation serves every other non-empty pack and names
`concat_t<TupleTail...>::type`, also when the tail is empty. -/
def concat_t {α : Type} : List (List α) → Option (List α)
  | [] => none
  | [TupleLhs, TupleRhs] => some (join_t TupleLhs TupleRhs)
  | TupleHead :: TupleTail =>
    match concat_t TupleTail with
    | none => none
    | some concatenated => some (join_t TupleHead concatenated)

/-- The type `rotate_t<Tuple>::type`. -/
def rotate_t {α : Type} : List α → List α
  | [] => []
  | [TaskHead] => [TaskHead]
  | TaskHead :: TaskTail => TaskTail ++ [TaskHead]

/-- The type `prepend_t<std::tuple<TaskHead>, std::tuple<TaskTail...>>::type`. -/
def prepend_t {α : Type} (TaskHead : α) (TaskTail : List (List α)) : List (List α) :=
  TaskTail.map (fun Tail => join_t [TaskHead] Tail)

/-- The member alias `task_validated` of `schedule_t`. -/
def task_validated (Time : Nat) (TaskHead : task_t) : task_schedule_t :=
  ⟨validate_t.start Time TaskHead, validate_t.finish Time TaskHead, TaskHead⟩

/-- The type `schedule_t<Time, Index, Tuple>::type`, one equation per template:
the primary template, the specialisation for `Index = 0` and one task, the
specialisation for `Index = 0` and several tasks, and the general
specialisation, whose two member aliases `future_branches` and
`present_branches` are instantiated before `std::conditional_t` selects. -/
def schedule_t (Time Index : Nat) (Tuple : List task_t) : List (List task_schedule_t) :=
  match Index, Tuple with
  | _, [] => []
  | 0, [TaskHead] => [[task_validated Time TaskHead]]
  | 0, _ :: _ :: _ => []
  | Index + 1, TaskHead :: TaskTail =>
    let future_branches :=
      schedule_t (validate_t.finish Time TaskHead) TaskTail.length TaskTail
    let present_branches := schedule_t Time Index (rotate_t (TaskHead :: TaskTail))
    if validate_t.validate Time TaskHead then
      join_t (prepend_t (task_validated Time TaskHead) future_branches) present_branches
    else
      [[]]
termination_by (Tuple.length, Index)
decreasing_by
  · exact Prod.Lex.left _ _ (by simp)
  · have h : (rotate_t (TaskHead :: TaskTail)).length = TaskTail.length + 1 := by
      cases TaskTail <;> simp [rotate_t]
    rw [h]
    exact Prod.Lex.right _ (by simp)

/-- The type `prune_t<Size, std::tuple<Schedules...>>::type`. -/
def prune_t (Size : Nat) (Schedules : List (List task_schedule_t)) :
    Option (List (List task_schedule_t)) :=
  concat_t (Schedules.map (fun Schedule =>
    if Size = Schedule.length then [Schedule] else []))

end detail

/-- The function `schedule<Tasks...>()`. -/
def schedule (Tasks : List task_t) : Option (List (List task_schedule_t)) :=
  detail.prune_t Tasks.length (detail.schedule_t 0 Tasks.length Tasks)

/-! ## The executor

`execute` runs on threads and a wall clock.  The embedding keeps the control
flow of the supervising thread and takes from the environment, for each
position of the schedule, what the activity started there does. -/

/-- What the activity of one position does, as the supervising thread sees it.
* `in_time`: the work unit returns and the promise is set before
  `start + s_finish_duration`; `wait_until` returns `ready`.
* `late`: `wait_until` returns `timeout`; the work unit returns later, so
  `thread.join()` returns.
* `never`: `wait_until` returns `timeout` and the work unit does not return
  (it loops or blocks); `thread.join()`, which has no timeout, does not return
  either. -/
inductive work_t where
  | in_time
  | late
  | never
  deriving DecidableEq, Repr

/-- What happens during a run, in the order of the supervising thread.  The
event `invoked` belongs to the thread of its position, which runs between
`started` and `joined` of that position; its place among the events of its
own position carries no meaning. -/
inductive event_t where
  /-- The `std::thread` of a position is constructed. -/
  | started (Index : Nat)
  /-- The thread calls `std::get<Index>(tasks).task(context)`. -/
  | invoked (Task : task_schedule_t)
  /-- The call `future.wait_until(start + finish_duration)` returns. -/
  | resolved (Index : Nat) (ready : Bool)
  /-- The call `thread.join()` returns. -/
  | joined (Index : Nat)
  deriving DecidableEq, Repr

namespace detail

/-- The statements that both `execute_t<Index>::execute` and
`execute_t<0>::execute` run for their own position: start the thread, wait
for the future until the finish bound, join, and map the future status to an
execution status.  The result is the events of this position and the status.
The work unit runs in the thread, between `started` and `joined`.  `none` as
status: the call yields no status (`std::get<Index>` out of range is
ill-formed; a join that does not return). -/
def supervise (work : Nat → work_t) (tasks : List task_schedule_t) (Index : Nat) :
    List event_t × Option execute_status_t :=
  match tasks[Index]? with
  | none => ([], none)
  | some Task =>
    match work Index with
    | work_t.in_time =>
      ([event_t.started Index, event_t.invoked Task, event_t.resolved Index true,
        event_t.joined Index], some execute_status_t.SUCCESS)
    | work_t.late =>
      ([event_t.started Index, event_t.invoked Task, event_t.resolved Index false,
        event_t.joined Index], some execute_status_t.FAILURE)
    | work_t.never =>
      ([event_t.started Index, event_t.invoked Task, event_t.resolved Index false], none)

/-- The function `execute_t<Index>::execute`, with the specialisation `execute_t<0>`: the
events of the run so far and the status. -/
def execute_t (work : Nat → work_t) (tasks : List task_schedule_t) :
    Nat → List event_t × Option execute_status_t
  | 0 => supervise work tasks 0
  | Index + 1 =>
    match execute_t work tasks Index with
    | (log, some execute_status_t.FAILURE) => (log, some execute_status_t.FAILURE)
    | (log, some execute_status_t.SUCCESS) =>
      (log ++ (supervise work tasks (Index + 1)).1, (supervise work tasks (Index + 1)).2)
    | (log, none) => (log, none)

end detail

/-- The function `execute(context, tasks)`.  For the empty tuple `sizeof...(Tasks) - 1`
wraps to the largest `size_t` and the instantiation of `execute_t` is
ill-formed. -/
def execute (work : Nat → work_t) (tasks : List task_schedule_t) :
    List event_t × Option execute_status_t :=
  if tasks.length = 0 then ([], none)
  else detail.execute_t work tasks (tasks.length - 1)

/-! ## Notions used to state the properties -/

/-- The work units invoked during a run, in the order of their invocation. -/
def invoked_tasks (log : List event_t) : List task_schedule_t :=
  log.filterMap (fun e =>
    match e with
    | event_t.invoked Task => some Task
    | _ => none)

/-- A sequence of scheduled tasks is the run of its own tasks, one after the
other from time `Time`, with the start and finish values that `validate_t`
computes, and every task passes `validate_t::validate` at its turn. -/
def validated_run : Nat → List task_schedule_t → Prop
  | _, [] => True
  | Time, e :: rest =>
    e = detail.task_validated Time e.Task ∧ detail.validate_t.validate Time e.Task = true ∧
      validated_run e.s_finish rest

/-- The sequential simulation of an ordering from time `Time`, in unbounded
arithmetic: `start = max(Time, arrival)`, `finish = start + cost`, and the next
task starts from that finish. -/
def simulate : Nat → List task_t → List task_schedule_t
  | _, [] => []
  | Time, Task :: rest =>
    ⟨max Time Task.s_arrival, max Time Task.s_arrival + Task.s_cost, Task⟩ ::
      simulate (max Time Task.s_arrival + Task.s_cost) rest

/-- An ordering is feasible from `Time` when every task of its simulation
finishes by its deadline. -/
def feasible (Time : Nat) (ordering : List task_t) : Prop :=
  ∀ e ∈ simulate Time ordering, e.s_finish ≤ e.Task.s_deadline

instance (Time : Nat) (ordering : List task_t) : Decidable (feasible Time ordering) := by
  unfold feasible; infer_instance

/-- The task list of `main.cpp`: `task_1_t`, `task_2_t`, `task_3_t`, `task_4_t`. -/
def main_tasks : List task_t :=
  [⟨1, 4, 2, 7⟩, ⟨2, 1, 1, 5⟩, ⟨3, 1, 2, 6⟩, ⟨4, 0, 2, 4⟩]

/-- The two schedules that `schedule` returns for `main_tasks`. -/
def main_schedules : List (List task_schedule_t) :=
  [[⟨0, 2, ⟨4, 0, 2, 4⟩⟩, ⟨2, 3, ⟨2, 1, 1, 5⟩⟩, ⟨3, 5, ⟨3, 1, 2, 6⟩⟩, ⟨5, 7, ⟨1, 4, 2, 7⟩⟩],
    [⟨0, 2, ⟨4, 0, 2, 4⟩⟩, ⟨2, 4, ⟨3, 1, 2, 6⟩⟩, ⟨4, 5, ⟨2, 1, 1, 5⟩⟩, ⟨5, 7, ⟨1, 4, 2, 7⟩⟩]]

/-- A task that satisfies `arrival < deadline` and `cost > 0` and whose
`start + cost` reaches `2 ^ 32` at time 0. -/
def wrapping_task : task_t := ⟨1, 1, 4294967295, 4294967295⟩

/-- The task `{arrival=0, cost=5, deadline=4}`, which cannot meet its deadline
on its own. -/
def hopeless_task : task_t := ⟨1, 0, 5, 4⟩

/-- The task `{arrival=0, cost=1, deadline=3}`. -/
def short_task : task_t := ⟨2, 0, 1, 3⟩

/-- A task that finishes three time units before `2 ^ 32`. -/
def late_task : task_t := ⟨2, 4294967292, 1, 4294967293⟩

/-- The two schedules that `schedule` returns for `wrapping_task` followed by
`short_task`. -/
def wrapped_schedules : List (List task_schedule_t) :=
  [[⟨1, 0, wrapping_task⟩, ⟨0, 1, short_task⟩], [⟨0, 1, short_task⟩, ⟨1, 0, wrapping_task⟩]]

/-- No sum that the validator can form for the tasks of a list reaches
`2 ^ 32`: neither `arrival + cost` of a task nor the cost of a task added to
the deadline of a task. -/
def no_wrap (Tasks : List task_t) : Prop :=
  ∀ T ∈ Tasks, T.s_arrival + T.s_cost < 2 ^ 32 ∧
    ∀ U ∈ Tasks, U.s_deadline + T.s_cost < 2 ^ 32

instance (Tasks : List task_t) : Decidable (no_wrap Tasks) := by
  unfold no_wrap; infer_instance

/-- The orderings of a task list that are feasible from time 0, in unbounded
arithmetic. -/
def feasible_orderings (Tasks : List task_t) : List (List task_t) :=
  Tasks.permutations.filter (fun p => decide (feasible 0 p))

end bratley

namespace bratley

open detail

/-! ## The templates, equation by equation -/

theorem rotate_t_length {α : Type} (l : List α) : (rotate_t l).length = l.length := by
  match l with
  | [] => rfl
  | [_] => rfl
  | _ :: _ :: _ => simp [rotate_t]

theorem schedule_t_nil (Time Index : Nat) : schedule_t Time Index [] = [] := by
  rw [schedule_t]

theorem schedule_t_zero_single (Time : Nat) (TaskHead : task_t) :
    schedule_t Time 0 [TaskHead] = [[task_validated Time TaskHead]] := by
  rw [schedule_t]

theorem schedule_t_zero_cons_cons (Time : Nat) (a b : task_t) (l : List task_t) :
    schedule_t Time 0 (a :: b :: l) = [] := by
  rw [schedule_t]

theorem schedule_t_succ (Time Index : Nat) (TaskHead : task_t) (TaskTail : List task_t) :
    schedule_t Time (Index + 1) (TaskHead :: TaskTail) =
      if validate_t.validate Time TaskHead then
        prepend_t (task_validated Time TaskHead)
            (schedule_t (validate_t.finish Time TaskHead) TaskTail.length TaskTail) ++
          schedule_t Time Index (rotate_t (TaskHead :: TaskTail))
      else [[]] := by
  rw [schedule_t]; rfl

theorem mem_prepend_t {α : Type} (a : α) (L : List (List α)) (s : List α) :
    s ∈ prepend_t a L ↔ ∃ s', s' ∈ L ∧ s = a :: s' := by
  simp [prepend_t, join_t, eq_comm]

theorem rotate_t_cons_cons {α : Type} (a b : α) (l : List α) :
    rotate_t (a :: b :: l) = b :: l ++ [a] := rfl

theorem rotate_t_perm {α : Type} (l : List α) : (rotate_t l).Perm l := by
  match l with
  | [] => exact List.Perm.refl _
  | [_] => exact List.Perm.refl _
  | a :: b :: l =>
    rw [rotate_t_cons_cons]
    exact List.perm_append_singleton a (b :: l)

/-! ## `concat_t` and `prune_t` -/

theorem concat_t_of_two_le {α : Type} :
    ∀ Ls : List (List α), 2 ≤ Ls.length → concat_t Ls = some Ls.flatten
  | [], h => by simp at h
  | [_], h => by simp at h
  | [a, b], _ => by simp [concat_t, join_t]
  | a :: b :: c :: l, _ => by
    have ih := concat_t_of_two_le (b :: c :: l) (by simp)
    rw [concat_t, ih]
    · simp [join_t]
    · intro _ h
      simp at h

theorem concat_t_of_length_le_one {α : Type} (Ls : List (List α)) (h : Ls.length ≤ 1) :
    concat_t Ls = none := by
  match Ls, h with
  | [], _ => rfl
  | [_], _ => rfl

theorem concat_t_eq_some_iff {α : Type} (Ls : List (List α)) (r : List α) :
    concat_t Ls = some r ↔ 2 ≤ Ls.length ∧ r = Ls.flatten := by
  constructor
  · intro h
    by_cases h2 : 2 ≤ Ls.length
    · rw [concat_t_of_two_le Ls h2] at h
      exact ⟨h2, (Option.some.inj h).symm⟩
    · rw [concat_t_of_length_le_one Ls (by omega)] at h
      cases h
  · rintro ⟨h2, rfl⟩
    exact concat_t_of_two_le Ls h2

theorem flatten_prune_eq_filter (Size : Nat) (Schedules : List (List task_schedule_t)) :
    (Schedules.map (fun Schedule =>
        if Size = Schedule.length then [Schedule] else [])).flatten =
      Schedules.filter (fun Schedule => decide (Schedule.length = Size)) := by
  induction Schedules with
  | nil => rfl
  | cons s l ih =>
    by_cases h : Size = s.length
    · have h' : s.length = Size := h.symm
      rw [List.map_cons, List.flatten_cons, ih, if_pos h, List.filter_cons]
      simp [h']
    · have h' : ¬ s.length = Size := fun e => h e.symm
      rw [List.map_cons, List.flatten_cons, ih, if_neg h, List.filter_cons]
      simp [h']

theorem prune_t_eq_some_iff (Size : Nat) (Schedules r : List (List task_schedule_t)) :
    prune_t Size Schedules = some r ↔
      2 ≤ Schedules.length ∧
        r = Schedules.filter (fun Schedule => decide (Schedule.length = Size)) := by
  unfold prune_t
  rw [concat_t_eq_some_iff, flatten_prune_eq_filter]
  simp

/-- The pruner on a collection of at least two sequences: the sequences of
length `Size`, in their order. -/
theorem prune_t_of_two_le (Size : Nat) (Schedules : List (List task_schedule_t))
    (h : 2 ≤ Schedules.length) :
    prune_t Size Schedules =
      some (Schedules.filter (fun Schedule => decide (Schedule.length = Size))) :=
  (prune_t_eq_some_iff Size Schedules _).2 ⟨h, rfl⟩

theorem prune_t_eq_none_iff (Size : Nat) (Schedules : List (List task_schedule_t)) :
    prune_t Size Schedules = none ↔ Schedules.length ≤ 1 := by
  constructor
  · intro h
    by_contra hc
    have := (prune_t_eq_some_iff Size Schedules _).2 ⟨by omega, rfl⟩
    rw [h] at this
    cases this
  · intro h
    unfold prune_t
    exact concat_t_of_length_le_one _ (by simpa using h)

theorem mem_of_schedule_eq_some {Tasks : List task_t} {Schedules : List (List task_schedule_t)}
    (h : schedule Tasks = some Schedules) (Schedule : List task_schedule_t) :
    Schedule ∈ Schedules ↔
      Schedule ∈ schedule_t 0 Tasks.length Tasks ∧ Schedule.length = Tasks.length := by
  unfold schedule at h
  obtain ⟨_, rfl⟩ := (prune_t_eq_some_iff _ _ _).1 h
  simp [List.mem_filter]

/-! ## Soundness of the enumerator -/

/-- Every sequence of the raw output of a search node is a validated run from
the node's time, over a sub-multiset of the node's remaining tasks.  The one
node without a validation of its own, `Index = 0` with a single task, is
reached only from the node with `Index = 1` and the same task and time. -/
theorem schedule_t_sound (Time Index : Nat) (Tuple : List task_t) :
    (Index ≠ 0 ∨ Tuple.length ≠ 1) →
      ∀ s ∈ schedule_t Time Index Tuple,
        validated_run Time s ∧ (s.map (fun e => e.Task)).Subperm Tuple := by
  induction Time, Index, Tuple using schedule_t.induct with
  | case1 Time Index => intro _ s hs; rw [schedule_t_nil] at hs; cases hs
  | case2 Time TaskHead => intro h; simp at h
  | case3 Time a b l => intro _ s hs; rw [schedule_t_zero_cons_cons] at hs; cases hs
  | case4 Time Index TaskHead TaskTail hv ih1 ih2 =>
    intro _ s hs
    rw [schedule_t_succ, if_pos hv, List.mem_append, mem_prepend_t] at hs
    rcases hs with ⟨s', hs', rfl⟩ | hs
    · obtain ⟨hr, hp⟩ := ih1 (by omega) s' hs'
      refine ⟨⟨rfl, hv, hr⟩, ?_⟩
      simpa [task_validated] using (List.subperm_cons TaskHead).2 hp
    · match Index, TaskTail, hs, ih2 with
      | 0, [], hs, _ =>
        rw [show rotate_t [TaskHead] = [TaskHead] from rfl, schedule_t_zero_single] at hs
        rw [List.mem_singleton] at hs
        subst hs
        exact ⟨⟨rfl, hv, trivial⟩, by simp [task_validated]⟩
      | 0, b :: l, hs, _ =>
        rw [rotate_t_cons_cons] at hs
        cases hl : l ++ [TaskHead] with
        | nil => simp at hl
        | cons c l' =>
          rw [List.cons_append, hl, schedule_t_zero_cons_cons] at hs
          cases hs
      | Index + 1, TaskTail, hs, ih2 =>
        obtain ⟨hr, hp⟩ := ih2 (Or.inl (by omega)) s hs
        exact ⟨hr, hp.trans (rotate_t_perm _).subperm⟩
  | case5 Time Index TaskHead TaskTail hv _ _ =>
    intro _ s hs
    rw [schedule_t_succ, if_neg hv, List.mem_singleton] at hs
    subst hs
    exact ⟨trivial, by simp⟩

/-- The raw output at the root of the search: `Index` is the number of
tasks. -/
theorem schedule_t_root_sound (Time : Nat) (Tuple : List task_t) :
    ∀ s ∈ schedule_t Time Tuple.length Tuple,
      validated_run Time s ∧ (s.map (fun e => e.Task)).Subperm Tuple :=
  schedule_t_sound Time Tuple.length Tuple (by omega)

theorem validated_run_finish_le : ∀ (Time : Nat) (s : List task_schedule_t),
    validated_run Time s → ∀ e ∈ s, e.s_finish ≤ e.Task.s_deadline
  | _, [], _, e, he => by cases he
  | Time, x :: rest, ⟨hx, hv, hr⟩, e, he => by
    rcases List.mem_cons.1 he with rfl | he
    · rw [hx]
      simpa [validate_t.validate, task_validated] using hv
    · exact validated_run_finish_le _ rest hr e he

theorem validated_run_arrival_le : ∀ (Time : Nat) (s : List task_schedule_t),
    validated_run Time s → ∀ e ∈ s, e.Task.s_arrival ≤ e.s_start
  | _, [], _, e, he => by cases he
  | Time, x :: rest, ⟨hx, _, hr⟩, e, he => by
    rcases List.mem_cons.1 he with rfl | he
    · rw [hx]
      simp only [task_validated, validate_t.start]
      split <;> omega
    · exact validated_run_arrival_le _ rest hr e he

theorem validated_run_no_overlap : ∀ (Time : Nat) (s : List task_schedule_t),
    validated_run Time s → ∀ (i : Nat) (h : i + 1 < s.length), s[i].s_finish ≤ s[i + 1].s_start
  | _, [], _, i, h => by simp at h
  | _, [_], _, i, h => by simp at h
  | Time, x :: y :: rest, ⟨_, _, hr⟩, 0, _ => by
    obtain ⟨hy, _, _⟩ := hr
    show x.s_finish ≤ y.s_start
    rw [hy]
    simp only [task_validated, validate_t.start]
    split <;> omega
  | Time, x :: y :: rest, ⟨_, _, hr⟩, i + 1, h => by
    have h' : i + 1 < (y :: rest).length := by simpa using h
    exact validated_run_no_overlap _ (y :: rest) hr i h'

/-! ## When the raw output has at least two sequences -/

theorem prepend_t_length {α : Type} (a : α) (L : List (List α)) :
    (prepend_t a L).length = L.length := by
  simp [prepend_t]

theorem schedule_t_root_ne_nil (Tuple : List task_t) :
    ∀ Time, Tuple ≠ [] → schedule_t Time Tuple.length Tuple ≠ [] := by
  induction Tuple with
  | nil => intro _ h; exact absurd rfl h
  | cons TaskHead TaskTail ih =>
    intro Time _
    cases TaskTail with
    | nil =>
      rw [show ([TaskHead] : List task_t).length = 0 + 1 from rfl, schedule_t_succ]
      split
      · rw [show rotate_t [TaskHead] = [TaskHead] from rfl, schedule_t_zero_single]
        simp
      · simp
    | cons b l =>
      rw [List.length_cons, schedule_t_succ]
      split
      · have := ih (validate_t.finish Time TaskHead) (by simp)
        intro hnil
        have hlen := congrArg List.length hnil
        rw [List.length_append, prepend_t_length] at hlen
        exact this (List.length_eq_zero.1 (by simpa using Nat.eq_zero_of_add_eq_zero_right hlen))
      · simp

theorem schedule_t_ne_nil_of_two (Time k : Nat) (a b : task_t) (l : List task_t) :
    schedule_t Time (k + 1) (a :: b :: l) ≠ [] := by
  rw [schedule_t_succ]
  split
  · have := schedule_t_root_ne_nil (b :: l) (validate_t.finish Time a) (by simp)
    intro hnil
    have hlen := congrArg List.length hnil
    rw [List.length_append, prepend_t_length] at hlen
    exact this (List.length_eq_zero.1 (by simpa using Nat.eq_zero_of_add_eq_zero_right hlen))
  · simp

/-- With at least two tasks and a first task that is valid at the root time,
the raw output has at least two sequences. -/
theorem schedule_t_root_two_le (Time : Nat) (a b : task_t) (l : List task_t)
    (hv : validate_t.validate Time a = true) :
    2 ≤ (schedule_t Time (a :: b :: l).length (a :: b :: l)).length := by
  rw [List.length_cons, schedule_t_succ, if_pos hv, List.length_append, prepend_t_length]
  have h1 := schedule_t_root_ne_nil (b :: l) (validate_t.finish Time a) (by simp)
  have h2 : schedule_t Time (b :: l).length (rotate_t (a :: b :: l)) ≠ [] := by
    rw [rotate_t_cons_cons]
    cases hl : l ++ [a] with
    | nil => simp at hl
    | cons c l' =>
      rw [List.cons_append, hl, List.length_cons]
      exact schedule_t_ne_nil_of_two Time l.length b c l'
  have := List.length_pos.2 h1
  have := List.length_pos.2 h2
  omega

/-- The inputs on which `schedule` has no result: fewer than two tasks, or a
first task that is not valid at time 0. -/
theorem schedule_eq_none_iff (Tasks : List task_t) :
    schedule Tasks = none ↔
      Tasks.length ≤ 1 ∨ ∃ T rest, Tasks = T :: rest ∧ validate_t.validate 0 T = false := by
  unfold schedule
  rw [prune_t_eq_none_iff]
  match Tasks with
  | [] => simp [schedule_t_nil]
  | [a] =>
    simp only [List.length_singleton, schedule_t_succ, le_refl, true_or, iff_true]
    split
    · rw [show rotate_t [a] = [a] from rfl, schedule_t_zero_single, List.length_nil,
        schedule_t_nil]
      simp [prepend_t]
    · simp
  | a :: b :: l =>
    by_cases hv : validate_t.validate 0 a = true
    · have := schedule_t_root_two_le 0 a b l hv
      constructor
      · intro h; omega
      · rintro (h | ⟨T, rest, hT, hTv⟩)
        · simp at h
        · rw [List.cons.injEq] at hT
          rw [← hT.1, hv] at hTv
          cases hTv
    · constructor
      · intro _
        exact Or.inr ⟨a, b :: l, rfl, by simpa using hv⟩
      · intro _
        rw [List.length_cons, schedule_t_succ, if_neg hv]
        simp

/-! ## Completeness of the enumerator -/

theorem feasible_cons (Time : Nat) (x : task_t) (p : List task_t) :
    feasible Time (x :: p) ↔
      max Time x.s_arrival + x.s_cost ≤ x.s_deadline ∧
        feasible (max Time x.s_arrival + x.s_cost) p := by
  simp [feasible, simulate]

/-- Every task of an ordering that is feasible from `Time` would meet its
deadline if it ran first, at `Time`. -/
theorem feasible_each_first : ∀ (p : List task_t) (Time : Nat), feasible Time p →
    ∀ y ∈ p, max Time y.s_arrival + y.s_cost ≤ y.s_deadline
  | [], _, _, y, hy => by cases hy
  | x :: p, Time, hf, y, hy => by
    obtain ⟨hx, hp⟩ := (feasible_cons Time x p).1 hf
    rcases List.mem_cons.1 hy with rfl | hy
    · exact hx
    · have := feasible_each_first p _ hp y hy
      have h1 : max Time y.s_arrival ≤ max (max Time x.s_arrival + x.s_cost) y.s_arrival := by
        apply max_le_max _ (le_refl _)
        exact le_trans (le_max_left _ _) (Nat.le_add_right _ _)
      omega

theorem validate_t_start_eq_max (Time : Nat) (Task : task_t) :
    validate_t.start Time Task = max Time Task.s_arrival := by
  unfold validate_t.start
  split
  · exact (max_eq_right (by omega)).symm
  · exact (max_eq_left (by omega)).symm

theorem validate_of_exact (Time : Nat) (Task : task_t)
    (h : max Time Task.s_arrival + Task.s_cost ≤ Task.s_deadline) :
    validate_t.validate Time Task = true := by
  simp only [validate_t.validate, validate_t.finish, validate_t_start_eq_max, decide_eq_true_eq]
  exact le_trans (Nat.mod_le _ _) h

theorem task_validated_of_exact (Time : Nat) (Task : task_t)
    (h : max Time Task.s_arrival + Task.s_cost ≤ Task.s_deadline)
    (hd : Task.s_deadline < 2 ^ 32) :
    validate_t.finish Time Task = max Time Task.s_arrival + Task.s_cost ∧
      task_validated Time Task =
        ⟨max Time Task.s_arrival, max Time Task.s_arrival + Task.s_cost, Task⟩ := by
  have hf : validate_t.finish Time Task = max Time Task.s_arrival + Task.s_cost := by
    simp only [validate_t.finish, validate_t_start_eq_max]
    exact Nat.mod_eq_of_lt (by omega)
  exact ⟨hf, by simp only [task_validated, hf, validate_t_start_eq_max]⟩

theorem rotate_t_cons_of_ne_nil {α : Type} (a : α) (l : List α) (h : l ≠ []) :
    rotate_t (a :: l) = l ++ [a] := by
  cases l with
  | nil => exact absurd rfl h
  | cons b l => rfl

/-- Every remaining task serves as head: when all remaining tasks are valid
at the node's time, the task at position `a.length` of the remaining list
heads every completion that the enumerator finds for the other tasks, taken
in the rotated order. -/
theorem schedule_t_head_mem : ∀ (k Time : Nat) (Tuple : List task_t),
    (∀ y ∈ Tuple, validate_t.validate Time y = true) →
    ∀ (a : List task_t) (x : task_t) (b : List task_t), Tuple = a ++ x :: b → a.length < k →
    ∀ s' ∈ schedule_t (validate_t.finish Time x) (a.length + b.length) (b ++ a),
      task_validated Time x :: s' ∈ schedule_t Time k Tuple
  | 0, _, _, _, _, _, _, _, hk, _, _ => by omega
  | k + 1, Time, Tuple, hall, [], x, b, hT, _, s', hs' => by
    subst hT
    rw [List.nil_append, schedule_t_succ, if_pos (hall x (by simp)), List.mem_append,
      mem_prepend_t]
    refine Or.inl ⟨s', ?_, rfl⟩
    simpa using hs'
  | k + 1, Time, Tuple, hall, h :: a', x, b, hT, hk, s', hs' => by
    subst hT
    rw [List.cons_append, schedule_t_succ, if_pos (hall h (by simp)), List.mem_append]
    right
    rw [rotate_t_cons_of_ne_nil h (a' ++ x :: b) (by simp)]
    apply schedule_t_head_mem k Time _ _ a' x (b ++ [h]) (by simp) (by simpa using hk)
    · have e1 : a'.length + (b ++ [h]).length = (h :: a').length + b.length := by
        simp only [List.length_append, List.length_cons, List.length_nil]
        omega
      have e2 : b ++ [h] ++ a' = b ++ h :: a' := by simp
      rw [e1, e2]
      exact hs'
    · intro y hy
      apply hall
      simp only [List.mem_append, List.mem_cons, List.mem_singleton, List.not_mem_nil,
        or_false] at hy ⊢
      tauto

theorem simulate_length : ∀ (p : List task_t) (Time : Nat), (simulate Time p).length = p.length
  | [], _ => rfl
  | x :: p, Time => by simp [simulate, simulate_length p]

/-- The raw output at the root of a search contains the simulation of every
ordering of the remaining tasks that is feasible from the node's time. -/
theorem schedule_t_complete : ∀ (n : Nat) (Tuple : List task_t) (Time : Nat) (p : List task_t),
    Tuple.length = n + 1 → (∀ T ∈ Tuple, T.s_deadline < 2 ^ 32) → p.Perm Tuple →
    feasible Time p → simulate Time p ∈ schedule_t Time Tuple.length Tuple
  | n, Tuple, Time, [], hn, _, hp, _ => by
    have := hp.length_eq
    simp at this
    omega
  | n, Tuple, Time, x :: p', hn, hd, hp, hf => by
    obtain ⟨hx, hp'⟩ := (feasible_cons Time x p').1 hf
    have hxT : x ∈ Tuple := hp.subset (by simp)
    obtain ⟨hfin, htv⟩ := task_validated_of_exact Time x hx (hd x hxT)
    have hall : ∀ y ∈ Tuple, validate_t.validate Time y = true := fun y hy =>
      validate_of_exact Time y (feasible_each_first _ Time hf y (hp.symm.subset hy))
    obtain ⟨a, b, hT⟩ := List.append_of_mem hxT
    have hperm : p'.Perm (b ++ a) := by
      have h1 : (x :: p').Perm (x :: (a ++ b)) := by
        rw [hT] at hp
        exact hp.trans List.perm_middle
      exact ((List.perm_cons x).1 h1).trans List.perm_append_comm
    have hlen : a.length + b.length = n := by
      rw [hT] at hn
      simp only [List.length_append, List.length_cons] at hn
      omega
    show _ :: simulate _ p' ∈ _
    rw [← htv]
    match n, hlen, hn with
    | 0, hlen, hn =>
      have ha : a = [] := List.length_eq_zero.1 (by omega)
      have hb : b = [] := List.length_eq_zero.1 (by omega)
      subst ha hb
      have hp'nil : p' = [] := by simpa using hperm
      subst hT hp'nil
      rw [show ([] ++ [x] : List task_t) = [x] from rfl,
        show ([x] : List task_t).length = 0 + 1 from rfl, schedule_t_succ,
        if_pos (hall x (by simp)), show rotate_t [x] = [x] from rfl, schedule_t_zero_single]
      simp [simulate, schedule_t_nil, prepend_t]
    | m + 1, hlen, hn =>
      apply schedule_t_head_mem Tuple.length Time Tuple hall a x b hT
      · rw [hT]; simp
      · rw [hfin, hlen]
        have hlen' : (b ++ a).length = m + 1 := by
          rw [List.length_append]; omega
        have := schedule_t_complete m (b ++ a) (max Time x.s_arrival + x.s_cost) p' hlen'
          (fun T hTm => hd T (by
            rw [hT]
            simp only [List.mem_append, List.mem_cons] at hTm ⊢
            tauto)) hperm hp'
        rwa [hlen'] at this

/-- Completeness of `schedule` on every list of at least two tasks: the
simulation of every ordering of the input that is feasible from time 0 is one
of the schedules returned. -/
theorem schedule_complete (Tasks p : List task_t) (h2 : 2 ≤ Tasks.length)
    (hd : ∀ T ∈ Tasks, T.s_deadline < 2 ^ 32) (hp : p.Perm Tasks) (hf : feasible 0 p) :
    ∃ Schedules, schedule Tasks = some Schedules ∧ simulate 0 p ∈ Schedules := by
  have hraw := schedule_t_complete (Tasks.length - 1) Tasks 0 p (by omega) hd hp hf
  match Tasks, h2, hp, hf, hraw with
  | a :: b :: l, _, hp, hf, hraw =>
    have hv : validate_t.validate 0 a = true :=
      validate_of_exact 0 a (feasible_each_first p 0 hf a (hp.symm.subset (by simp)))
    have hsome := prune_t_of_two_le (a :: b :: l).length _ (schedule_t_root_two_le 0 a b l hv)
    refine ⟨_, hsome, ?_⟩
    rw [List.mem_filter]
    refine ⟨hraw, ?_⟩
    rw [simulate_length, hp.length_eq]
    simp

/-! ## The example of `main.cpp` -/

theorem schedule_complete_main_tasks :
    ∃ Schedules, schedule main_tasks = some Schedules ∧
      simulate 0 [⟨4, 0, 2, 4⟩, ⟨3, 1, 2, 6⟩, ⟨2, 1, 1, 5⟩, ⟨1, 4, 2, 7⟩] ∈ Schedules :=
  schedule_complete main_tasks [⟨4, 0, 2, 4⟩, ⟨3, 1, 2, 6⟩, ⟨2, 1, 1, 5⟩, ⟨1, 4, 2, 7⟩]
    (by decide) (by decide) (by decide) (by decide)

theorem schedule_main_tasks : schedule main_tasks = some main_schedules := by
  simp [main_tasks, main_schedules, schedule, prune_t, schedule_t, concat_t, join_t,
    prepend_t, rotate_t, validate_t.validate, validate_t.finish, validate_t.start,
    task_validated]

/-! ## Properties of the returned schedules -/

/-- C2: every schedule that `schedule` returns has as many entries as there
are input tasks, and its tasks are a permutation of the input tasks: every
input task occurs exactly once. -/
theorem schedule_permutation (Tasks : List task_t) (Schedules : List (List task_schedule_t))
    (h : schedule Tasks = some Schedules) (Schedule : List task_schedule_t)
    (hs : Schedule ∈ Schedules) :
    Schedule.length = Tasks.length ∧ (Schedule.map (fun e => e.Task)).Perm Tasks := by
  obtain ⟨hraw, hlen⟩ := (mem_of_schedule_eq_some h Schedule).1 hs
  refine ⟨hlen, ?_⟩
  apply (schedule_t_root_sound 0 Tasks Schedule hraw).2.perm_of_length_le
  simp [hlen]

theorem schedule_permutation_witness :
    schedule main_tasks = some main_schedules ∧
      main_schedules[1] ∈ main_schedules ∧
      main_schedules[1].length = main_tasks.length ∧
      (main_schedules[1].map (fun e => e.Task)).Perm main_tasks :=
  ⟨schedule_main_tasks, by decide,
    schedule_permutation main_tasks main_schedules schedule_main_tasks _ (by decide)⟩

/-- C3: in every schedule that `schedule` returns, every entry finishes by the
deadline of its task; this includes the last entry, which the specialisation
`schedule_t<Time, 0, std::tuple<TaskHead>>` emits without a validation of its
own. -/
theorem schedule_finish_le_deadline (Tasks : List task_t)
    (Schedules : List (List task_schedule_t)) (h : schedule Tasks = some Schedules)
    (Schedule : List task_schedule_t) (hs : Schedule ∈ Schedules) :
    ∀ e ∈ Schedule, e.s_finish ≤ e.Task.s_deadline := by
  obtain ⟨hraw, _⟩ := (mem_of_schedule_eq_some h Schedule).1 hs
  exact validated_run_finish_le 0 Schedule (schedule_t_root_sound 0 Tasks Schedule hraw).1

theorem schedule_finish_le_deadline_witness :
    schedule main_tasks = some main_schedules ∧
      main_schedules[0] ∈ main_schedules ∧
      ∀ e ∈ main_schedules[0], e.s_finish ≤ e.Task.s_deadline :=
  ⟨schedule_main_tasks, by decide,
    schedule_finish_le_deadline main_tasks main_schedules schedule_main_tasks _ (by decide)⟩

/-- C4: in every schedule that `schedule` returns, an entry with a successor
finishes no later than its successor starts. -/
theorem schedule_no_overlap (Tasks : List task_t) (Schedules : List (List task_schedule_t))
    (h : schedule Tasks = some Schedules) (Schedule : List task_schedule_t)
    (hs : Schedule ∈ Schedules) (i : Nat) (hi : i + 1 < Schedule.length) :
    Schedule[i + 1].s_start ≥ Schedule[i].s_finish := by
  obtain ⟨hraw, _⟩ := (mem_of_schedule_eq_some h Schedule).1 hs
  exact validated_run_no_overlap 0 Schedule (schedule_t_root_sound 0 Tasks Schedule hraw).1 i hi

theorem schedule_no_overlap_witness :
    schedule main_tasks = some main_schedules ∧
      main_schedules[1] ∈ main_schedules ∧
      (main_schedules[1])[2 + 1].s_start ≥ (main_schedules[1])[2].s_finish :=
  ⟨schedule_main_tasks, by decide,
    schedule_no_overlap main_tasks main_schedules schedule_main_tasks _ (by decide) 2
      (by decide)⟩

/-- C5: in every schedule that `schedule` returns, no entry starts before the
arrival of its task. -/
theorem schedule_start_ge_arrival (Tasks : List task_t)
    (Schedules : List (List task_schedule_t)) (h : schedule Tasks = some Schedules)
    (Schedule : List task_schedule_t) (hs : Schedule ∈ Schedules) :
    ∀ e ∈ Schedule, e.s_start ≥ e.Task.s_arrival := by
  obtain ⟨hraw, _⟩ := (mem_of_schedule_eq_some h Schedule).1 hs
  exact validated_run_arrival_le 0 Schedule (schedule_t_root_sound 0 Tasks Schedule hraw).1

theorem schedule_start_ge_arrival_witness :
    schedule main_tasks = some main_schedules ∧
      main_schedules[0] ∈ main_schedules ∧
      ∀ e ∈ main_schedules[0], e.s_start ≥ e.Task.s_arrival :=
  ⟨schedule_main_tasks, by decide,
    schedule_start_ge_arrival main_tasks main_schedules schedule_main_tasks _ (by decide)⟩

/-! ## The validator -/

/-- C6 at the failing input: for a task with `arrival < deadline` and
`cost > 0` whose three constants are `uint32_t` values, at time 0, `start()` is
1 and `finish()` is 0, not `start() + cost`, which is `2 ^ 32`; `validate()`
accepts although `start() + cost` exceeds the deadline. -/
theorem validate_t_finish_wraps :
    wrapping_task.is_uint32 ∧ wrapping_task.s_arrival < wrapping_task.s_deadline ∧
      0 < wrapping_task.s_cost ∧
      validate_t.start 0 wrapping_task = 1 ∧ validate_t.finish 0 wrapping_task = 0 ∧
      validate_t.start 0 wrapping_task + wrapping_task.s_cost = 2 ^ 32 ∧
      validate_t.finish 0 wrapping_task ≠
        validate_t.start 0 wrapping_task + wrapping_task.s_cost ∧
      validate_t.validate 0 wrapping_task = true ∧
      ¬ validate_t.start 0 wrapping_task + wrapping_task.s_cost ≤ wrapping_task.s_deadline := by
  decide

/-- What the validator computes on every input: `start()` is
`max(t, arrival)`; `finish()` is `start() + cost` reduced modulo `2 ^ 32`,
hence the exact sum whenever that is below `2 ^ 32`; `validate()` compares
`finish()` with the deadline. -/
theorem validate_t_reference (Time : Nat) (Task : task_t) :
    validate_t.start Time Task = max Time Task.s_arrival ∧
      validate_t.finish Time Task = (validate_t.start Time Task + Task.s_cost) % 2 ^ 32 ∧
      (validate_t.start Time Task + Task.s_cost < 2 ^ 32 →
        validate_t.finish Time Task = validate_t.start Time Task + Task.s_cost) ∧
      (validate_t.validate Time Task = true ↔
        validate_t.finish Time Task ≤ Task.s_deadline) := by
  refine ⟨validate_t_start_eq_max Time Task, rfl, ?_, ?_⟩
  · intro h
    exact Nat.mod_eq_of_lt h
  · simp [validate_t.validate]

theorem validate_t_reference_witness :
    validate_t.start 2 ⟨3, 1, 2, 6⟩ + 2 < 2 ^ 32 ∧
      validate_t.finish 2 ⟨3, 1, 2, 6⟩ = validate_t.start 2 ⟨3, 1, 2, 6⟩ + 2 :=
  ⟨by decide, (validate_t_reference 2 ⟨3, 1, 2, 6⟩).2.2.1 (by decide)⟩

/-! ## The pruner and the single-sequence defect of `concat_t` -/

/-- C7 at the failing inputs: on a collection of one sequence, of the wanted
length or not, and on the empty collection, `prune_t` has no result, where the
length filter gives a collection. -/
theorem prune_t_single_no_result :
    prune_t 1 [[⟨2, 3, ⟨1, 2, 1, 3⟩⟩]] = none ∧
      [[(⟨2, 3, ⟨1, 2, 1, 3⟩⟩ : task_schedule_t)]].filter (fun s => decide (s.length = 1)) =
        [[⟨2, 3, ⟨1, 2, 1, 3⟩⟩]] ∧
      prune_t 1 [[]] = none ∧ prune_t 0 [] = none := by
  decide

/-- C8 at the failing inputs: when the first task is infeasible at time 0 the
raw output is the lone dead marker and `schedule` has no result, for one task
and for several. -/
theorem schedule_infeasible_head_no_result :
    schedule_t 0 1 [⟨1, 0, 5, 4⟩] = [[]] ∧ schedule [⟨1, 0, 5, 4⟩] = none ∧
      schedule_t 0 2 [⟨1, 0, 5, 4⟩, ⟨2, 0, 1, 3⟩] = [[]] ∧
      schedule [⟨1, 0, 5, 4⟩, ⟨2, 0, 1, 3⟩] = none := by
  simp [schedule, prune_t, schedule_t, concat_t, join_t, prepend_t, rotate_t,
    validate_t.validate, validate_t.finish, validate_t.start, task_validated]

/-- C1 at the failing input: the single task `{arrival=2, cost=1, deadline=3}`
is feasible from time 0 and the enumerator emits its simulation, but
`schedule` has no result. -/
theorem schedule_single_task_no_result :
    feasible 0 [⟨1, 2, 1, 3⟩] ∧
      schedule_t 0 1 [⟨1, 2, 1, 3⟩] = [simulate 0 [⟨1, 2, 1, 3⟩]] ∧
      schedule [⟨1, 2, 1, 3⟩] = none := by
  refine ⟨by decide, ?_, ?_⟩ <;>
  simp [schedule, prune_t, schedule_t, concat_t, join_t, prepend_t, rotate_t,
    validate_t.validate, validate_t.finish, validate_t.start, task_validated, simulate]

/-! ## The executor -/

theorem supervise_status (work : Nat → work_t) (tasks : List task_schedule_t) (Index : Nat)
    (h : Index < tasks.length) :
    (supervise work tasks Index).2 =
      match work Index with
      | work_t.in_time => some execute_status_t.SUCCESS
      | work_t.late => some execute_status_t.FAILURE
      | work_t.never => none := by
  unfold supervise
  rw [List.getElem?_eq_getElem h]
  cases work Index <;> rfl

theorem supervise_invoked (work : Nat → work_t) (tasks : List task_schedule_t) (Index : Nat)
    (h : Index < tasks.length) :
    invoked_tasks (supervise work tasks Index).1 = [tasks[Index]] := by
  unfold supervise
  rw [List.getElem?_eq_getElem h]
  cases work Index <;> rfl

/-- The run up to position `Index` stops at the first position `k` whose
activity is not in time, or goes through to `Index`; its events are those of
the positions `0 .. k` in order and its status is that of position `k`. -/
theorem execute_t_spec (work : Nat → work_t) (tasks : List task_schedule_t) (Index : Nat) :
    ∃ k, k ≤ Index ∧ (∀ i, i < k → work i = work_t.in_time) ∧
      (k < Index → work k ≠ work_t.in_time) ∧
      (Index < tasks.length →
        (execute_t work tasks Index).1 =
            (List.range (k + 1)).flatMap (fun i => (supervise work tasks i).1) ∧
          (execute_t work tasks Index).2 = (supervise work tasks k).2) := by
  induction Index with
  | zero =>
    refine ⟨0, le_refl _, by intro i hi; omega, by intro h; omega, fun _ => ?_⟩
    simp [execute_t, List.range_succ]
  | succ Index ih =>
    obtain ⟨k, hk, hpre, hstop, hrun⟩ := ih
    by_cases hw : work k = work_t.in_time
    · have hkI : k = Index := by
        by_contra hne
        exact hstop (by omega) hw
      subst hkI
      refine ⟨k + 1, le_refl _, ?_, by intro h; omega, fun hlt => ?_⟩
      · intro i hi
        rcases Nat.lt_succ_iff_lt_or_eq.1 hi with h | h
        · exact hpre i h
        · rw [h]; exact hw
      · obtain ⟨h1, h2⟩ := hrun (by omega)
        have hs := supervise_status work tasks k (by omega)
        rw [hw] at hs
        rw [hs] at h2
        have : execute_t work tasks (k + 1) =
            ((execute_t work tasks k).1 ++ (supervise work tasks (k + 1)).1,
              (supervise work tasks (k + 1)).2) := by
          rw [execute_t]
          rw [show execute_t work tasks k =
            ((execute_t work tasks k).1, (execute_t work tasks k).2) from rfl, h2]
        rw [this, h1, List.range_succ (k + 1), List.flatMap_append]
        simp
    · refine ⟨k, by omega, hpre, fun _ => hw, fun hlt => ?_⟩
      obtain ⟨h1, h2⟩ := hrun (by omega)
      have hs := supervise_status work tasks k (by omega)
      have : execute_t work tasks (Index + 1) = execute_t work tasks Index := by
        rw [execute_t]
        rw [show execute_t work tasks Index =
          ((execute_t work tasks Index).1, (execute_t work tasks Index).2) from rfl, h2, hs]
        cases hwk : work k with
        | in_time => exact absurd hwk hw
        | late => rfl
        | never => rfl
      rw [this]
      exact ⟨h1, h2⟩

theorem invoked_tasks_append (l₁ l₂ : List event_t) :
    invoked_tasks (l₁ ++ l₂) = invoked_tasks l₁ ++ invoked_tasks l₂ := by
  simp [invoked_tasks]

theorem invoked_tasks_positions (work : Nat → work_t) (tasks : List task_schedule_t) :
    ∀ m, m ≤ tasks.length →
      invoked_tasks ((List.range m).flatMap (fun i => (supervise work tasks i).1)) =
        tasks.take m
  | 0, _ => by simp [invoked_tasks]
  | m + 1, h => by
    have ih := invoked_tasks_positions work tasks m (by omega)
    rw [List.range_succ, List.flatMap_append, invoked_tasks_append, ih]
    simp only [List.flatMap_cons, List.flatMap_nil, List.append_nil]
    rw [supervise_invoked work tasks m (by omega), List.take_succ,
      List.getElem?_eq_getElem (by omega)]
    rfl

theorem started_mem_supervise (work : Nat → work_t) (tasks : List task_schedule_t)
    (m j : Nat) (h : event_t.started j ∈ (supervise work tasks m).1) : m = j := by
  unfold supervise at h
  cases ht : tasks[m]? with
  | none => simp [ht] at h
  | some Task =>
    rw [ht] at h
    cases hw : work m <;> simp [hw] at h <;> exact h.symm

theorem supervise_events_mem (work : Nat → work_t) (tasks : List task_schedule_t) (i : Nat)
    (h : i < tasks.length) :
    event_t.started i ∈ (supervise work tasks i).1 ∧
      ∃ ready, event_t.resolved i ready ∈ (supervise work tasks i).1 := by
  unfold supervise
  rw [List.getElem?_eq_getElem h]
  cases work i
  · exact ⟨by simp, true, by simp⟩
  · exact ⟨by simp, false, by simp⟩
  · exact ⟨by simp, false, by simp⟩

theorem mem_positions_of_lt (work : Nat → work_t) (tasks : List task_schedule_t)
    (e : event_t) (i m : Nat) (hi : i < m) (he : e ∈ (supervise work tasks i).1) :
    e ∈ (List.range m).flatMap (fun i => (supervise work tasks i).1) :=
  List.mem_flatMap.2 ⟨i, List.mem_range.2 hi, he⟩

/-- In the events of the positions `0 .. m - 1`, whatever precedes the start
of the thread of position `i + 1` contains the start and the resolution of
position `i`. -/
theorem positions_ordered (work : Nat → work_t) (tasks : List task_schedule_t) :
    ∀ m, m ≤ tasks.length → ∀ (pre post : List event_t) (i : Nat),
      (List.range m).flatMap (fun i => (supervise work tasks i).1) =
          pre ++ event_t.started (i + 1) :: post →
        event_t.started i ∈ pre ∧ ∃ ready, event_t.resolved i ready ∈ pre
  | 0, _, pre, post, i, h => by
    simp at h
  | m + 1, hm, pre, post, i, h => by
    have ih := positions_ordered work tasks m (by omega)
    rw [List.range_succ, List.flatMap_append] at h
    simp only [List.flatMap_cons, List.flatMap_nil, List.append_nil] at h
    have key : ∀ a', event_t.started (i + 1) ∈ (supervise work tasks m).1 →
        pre = (List.range m).flatMap (fun i => (supervise work tasks i).1) ++ a' →
        event_t.started i ∈ pre ∧ ∃ ready, event_t.resolved i ready ∈ pre := by
      intro a' hmem hpre
      have hmi : m = i + 1 := started_mem_supervise work tasks m (i + 1) hmem
      obtain ⟨hs, r, hr⟩ := supervise_events_mem work tasks i (by omega)
      rw [hpre]
      exact ⟨List.mem_append_left _ (mem_positions_of_lt work tasks _ i m (by omega) hs),
        r, List.mem_append_left _ (mem_positions_of_lt work tasks _ i m (by omega) hr)⟩
    rcases List.append_eq_append_iff.1 h with ⟨a', hpre, hblock⟩ | ⟨c', hF, hc⟩
    · exact key a' (by rw [hblock]; simp) hpre
    · cases c' with
      | nil =>
        simp only [List.nil_append] at hc
        exact key [] (by rw [← hc]; simp) (by simpa using hF.symm)
      | cons x c'' =>
        simp only [List.cons_append, List.cons.injEq] at hc
        obtain ⟨hx, _⟩ := hc
        subst hx
        exact ih pre c'' i hF

/-- The position at which a non-empty run stops is the first position whose
activity is not in time. -/
theorem execute_spec (work : Nat → work_t) (tasks : List task_schedule_t) (hne : tasks ≠ []) :
    ∃ k, k < tasks.length ∧ (∀ i, i < k → work i = work_t.in_time) ∧
      (k + 1 < tasks.length → work k ≠ work_t.in_time) ∧
      (execute work tasks).1 =
        (List.range (k + 1)).flatMap (fun i => (supervise work tasks i).1) ∧
      (execute work tasks).2 = (supervise work tasks k).2 := by
  have hlen : 0 < tasks.length := List.length_pos.2 hne
  obtain ⟨k, hk, hpre, hstop, hrun⟩ := execute_t_spec work tasks (tasks.length - 1)
  have he : execute work tasks = execute_t work tasks (tasks.length - 1) := by
    unfold execute
    rw [if_neg (by omega)]
  rw [he]
  exact ⟨k, by omega, hpre, fun h => hstop (by omega), hrun (by omega)⟩

theorem execute_stop_unique (work : Nat → work_t) (n k k' : Nat) (hk : k < n) (hk' : k' < n)
    (hpre : ∀ i, i < k → work i = work_t.in_time)
    (hstop : k + 1 < n → work k ≠ work_t.in_time)
    (hpre' : ∀ i, i < k' → work i = work_t.in_time) (hmiss : work k' ≠ work_t.in_time) :
    k = k' := by
  rcases Nat.lt_trichotomy k k' with h | h | h
  · exact absurd (hpre' k h) (hstop (by omega))
  · exact h
  · exact absurd (hpre k' h) hmiss

/-- C9, as stated, fails: a schedule of one task whose work unit does not
return misses its bound, and `execute` yields no status, not `FAILURE`: the
late activity is joined without a timeout. -/
theorem execute_work_never_returns :
    ¬ (∀ i, i < [(⟨2, 3, ⟨1, 2, 1, 3⟩⟩ : task_schedule_t)].length →
        (fun _ => work_t.never) i = work_t.in_time) ∧
      (execute (fun _ => work_t.never) [⟨2, 3, ⟨1, 2, 1, 3⟩⟩]).2 ≠
        some execute_status_t.FAILURE ∧
      (execute (fun _ => work_t.never) [⟨2, 3, ⟨1, 2, 1, 3⟩⟩]).2 = none := by
  refine ⟨fun h => ?_, by decide, by decide⟩
  have := h 0 (by decide)
  cases this

/-- C9, amended: for a non-empty schedule, `execute` returns `SUCCESS` exactly
when every task signals completion in time; when the first task that misses
its bound returns late, `execute` returns `FAILURE`; when the work unit of
that task does not return, `execute` yields no status. -/
theorem execute_status (work : Nat → work_t) (tasks : List task_schedule_t)
    (hne : tasks ≠ []) :
    ((execute work tasks).2 = some execute_status_t.SUCCESS ↔
        ∀ i, i < tasks.length → work i = work_t.in_time) ∧
      (∀ k, k < tasks.length → (∀ i, i < k → work i = work_t.in_time) →
        work k = work_t.late → (execute work tasks).2 = some execute_status_t.FAILURE) ∧
      (∀ k, k < tasks.length → (∀ i, i < k → work i = work_t.in_time) →
        work k = work_t.never → (execute work tasks).2 = none) := by
  obtain ⟨k, hk, hpre, hstop, _, hst⟩ := execute_spec work tasks hne
  have hs := supervise_status work tasks k hk
  rw [hst, hs]
  refine ⟨⟨fun h i hi => ?_, fun h => ?_⟩, fun k' hk' hpre' hw => ?_, fun k' hk' hpre' hw => ?_⟩
  · have hwk : work k = work_t.in_time := by
      cases hwk : work k with
      | in_time => rfl
      | late => rw [hwk] at h; cases h
      | never => rw [hwk] at h; cases h
    have hlast : ¬ k + 1 < tasks.length := fun hlt => hstop hlt hwk
    rcases Nat.lt_or_ge i k with hik | hik
    · exact hpre i hik
    · have : i = k := by omega
      rw [this]; exact hwk
  · rw [h k hk]
  · have := execute_stop_unique work tasks.length k k' hk hk' hpre hstop hpre'
      (by rw [hw]; intro h; cases h)
    rw [this, hw]
  · have := execute_stop_unique work tasks.length k k' hk hk' hpre hstop hpre'
      (by rw [hw]; intro h; cases h)
    rw [this, hw]

theorem execute_status_witness :
    main_schedules[0] ≠ [] ∧ (fun i => if i = 2 then work_t.late else work_t.in_time) 2 =
        work_t.late ∧
      (execute (fun i => if i = 2 then work_t.late else work_t.in_time) main_schedules[0]).2 =
        some execute_status_t.FAILURE :=
  ⟨by decide, rfl,
    (execute_status (fun i => if i = 2 then work_t.late else work_t.in_time)
      main_schedules[0] (by decide)).2.1 2 (by decide)
      (fun i hi => by
        have : i ≠ 2 := by omega
        simp [this]) rfl⟩

/-- C10: for every schedule and whatever the activities do, the work units
invoked are, in schedule order, exactly the tasks up to and including the
first one that misses its bound (all tasks when none misses), and the thread
of position `i + 1` is started only after the thread of position `i` was
started and its future resolved. -/
theorem execute_sequential (work : Nat → work_t) (tasks : List task_schedule_t) :
    (∀ k, k < tasks.length → (∀ i, i < k → work i = work_t.in_time) →
        work k ≠ work_t.in_time →
        invoked_tasks (execute work tasks).1 = tasks.take (k + 1)) ∧
      ((∀ i, i < tasks.length → work i = work_t.in_time) →
        invoked_tasks (execute work tasks).1 = tasks) ∧
      (∀ (pre post : List event_t) (i : Nat),
        (execute work tasks).1 = pre ++ event_t.started (i + 1) :: post →
        event_t.started i ∈ pre ∧ ∃ ready, event_t.resolved i ready ∈ pre) := by
  by_cases hne : tasks = []
  · subst hne
    refine ⟨fun k hk => by simp at hk, fun _ => by simp [execute, invoked_tasks], ?_⟩
    intro pre post i h
    simp [execute] at h
  · obtain ⟨k, hk, hpre, hstop, hlog, _⟩ := execute_spec work tasks hne
    rw [hlog]
    refine ⟨fun k' hk' hpre' hw => ?_, fun hall => ?_, fun pre post i h => ?_⟩
    · have := execute_stop_unique work tasks.length k k' hk hk' hpre hstop hpre' hw
      rw [← this]
      exact invoked_tasks_positions work tasks (k + 1) (by omega)
    · have hlast : ¬ k + 1 < tasks.length := fun hlt => hstop hlt (hall k hk)
      rw [invoked_tasks_positions work tasks (k + 1) (by omega)]
      exact List.take_of_length_le (by omega)
    · exact positions_ordered work tasks (k + 1) (by omega) pre post i h

theorem execute_sequential_witness :
    (fun i => if i = 1 then work_t.late else work_t.in_time) 1 ≠ work_t.in_time ∧
      invoked_tasks
          (execute (fun i => if i = 1 then work_t.late else work_t.in_time)
            main_schedules[0]).1 =
        main_schedules[0].take (1 + 1) :=
  ⟨by decide,
    (execute_sequential (fun i => if i = 1 then work_t.late else work_t.in_time)
      main_schedules[0]).1 1 (by decide)
      (fun i hi => by
        have : i ≠ 1 := by omega
        simp [this]) (by decide)⟩

/-! ## The scenarios of the specification -/

/-- C11: for the four tasks of `main.cpp`, in their order, `schedule` returns
a non-empty collection, and a returned schedule has `finish <= deadline` for
every task. -/
theorem schedule_scenario_a :
    ∃ Schedules, schedule main_tasks = some Schedules ∧ 0 < Schedules.length ∧
      ∃ Schedule ∈ Schedules, ∀ e ∈ Schedule, e.s_finish ≤ e.Task.s_deadline :=
  ⟨main_schedules, schedule_main_tasks, by decide, main_schedules[0], by decide, by decide⟩

/-- C12 at its input: for the single task `{arrival=2, cost=1, deadline=3}`
the enumerator emits the one sequence with `start=2, finish=3`, the pruner has
no result on that collection of one sequence, and so `schedule` has none. -/
theorem schedule_scenario_b_no_result :
    schedule_t 0 1 [⟨1, 2, 1, 3⟩] = [[⟨2, 3, ⟨1, 2, 1, 3⟩⟩]] ∧
      prune_t 1 [[⟨2, 3, ⟨1, 2, 1, 3⟩⟩]] = none ∧
      schedule [⟨1, 2, 1, 3⟩] = none := by
  refine ⟨?_, by decide, ?_⟩ <;>
  simp [schedule, prune_t, schedule_t, concat_t, join_t, prepend_t, rotate_t,
    validate_t.validate, validate_t.finish, validate_t.start, task_validated]

/-- C13 at two failing inputs: with the task `{arrival=0, cost=5, deadline=4}`
first, `schedule` has no result instead of the empty collection; with that
task second, behind a partner that finishes at `2 ^ 32 - 3`, its finish wraps
to 2 and `schedule` returns a schedule. -/
theorem schedule_scenario_c_diverges :
    hopeless_task.s_arrival + hopeless_task.s_cost > hopeless_task.s_deadline ∧
      schedule [hopeless_task, short_task] = none ∧
      schedule [late_task, hopeless_task] =
        some [[⟨4294967292, 4294967293, late_task⟩, ⟨4294967293, 2, hopeless_task⟩]] := by
  refine ⟨by decide, ?_, ?_⟩ <;>
  simp [hopeless_task, short_task, late_task, schedule, prune_t, schedule_t, concat_t,
    join_t, prepend_t, rotate_t, validate_t.validate, validate_t.finish, validate_t.start,
    task_validated]

/-! ## The validator under wrap-around -/

/-- Every entry of a validated run was validated at the start time of the run
or at the finish of an entry of the run. -/
theorem validated_run_entry : ∀ (Time : Nat) (s : List task_schedule_t),
    validated_run Time s → ∀ e ∈ s,
      ∃ t, (t = Time ∨ ∃ e' ∈ s, t = e'.s_finish) ∧ validate_t.validate t e.Task = true
  | _, [], _, e, he => by cases he
  | Time, x :: rest, ⟨_, hv, hr⟩, e, he => by
    rcases List.mem_cons.1 he with rfl | he
    · exact ⟨Time, Or.inl rfl, hv⟩
    · obtain ⟨t, ht, hvt⟩ := validated_run_entry _ rest hr e he
      refine ⟨t, Or.inr ?_, hvt⟩
      rcases ht with rfl | ⟨e', he', rfl⟩
      · exact ⟨x, by simp, rfl⟩
      · exact ⟨e', by simp [he'], rfl⟩

/-- Without wrap-around the validator decides in exact arithmetic. -/
theorem validate_iff_exact_of_no_wrap (Time : Nat) (Task : task_t)
    (h : max Time Task.s_arrival + Task.s_cost < 2 ^ 32) :
    validate_t.validate Time Task = true ↔
      max Time Task.s_arrival + Task.s_cost ≤ Task.s_deadline := by
  simp only [validate_t.validate, validate_t.finish, validate_t_start_eq_max,
    decide_eq_true_eq, Nat.mod_eq_of_lt h]

/-- C14 at two failing inputs, both with `arrival < deadline`, `cost > 0` and
`uint32_t` constants: the validator accepts although the exact finish exceeds
the deadline, at time 0 for a task with a large cost and at a late time for
the task `{arrival=0, cost=5, deadline=4}`. -/
theorem validate_t_accepts_wrapped_finish :
    wrapping_task.is_uint32 ∧ wrapping_task.s_arrival < wrapping_task.s_deadline ∧
      0 < wrapping_task.s_cost ∧ validate_t.validate 0 wrapping_task = true ∧
      ¬ max 0 wrapping_task.s_arrival + wrapping_task.s_cost ≤ wrapping_task.s_deadline ∧
      hopeless_task.is_uint32 ∧ hopeless_task.s_arrival < hopeless_task.s_deadline ∧
      0 < hopeless_task.s_cost ∧ validate_t.validate 4294967293 hopeless_task = true ∧
      ¬ max 4294967293 hopeless_task.s_arrival + hopeless_task.s_cost ≤
        hopeless_task.s_deadline := by
  decide

/-- A task list with a task that cannot meet its deadline on its own has no
schedule, when `schedule` has a result and no sum in reach of that task
wraps. -/
theorem schedule_empty_of_hopeless (Tasks : List task_t) (T : task_t)
    (Schedules : List (List task_schedule_t)) (hT : T ∈ Tasks)
    (hh : T.s_arrival + T.s_cost > T.s_deadline) (hw : T.s_arrival + T.s_cost < 2 ^ 32)
    (hwd : ∀ U ∈ Tasks, U.s_deadline + T.s_cost < 2 ^ 32)
    (h : schedule Tasks = some Schedules) : Schedules = [] := by
  apply List.eq_nil_iff_forall_not_mem.2
  intro s hs
  obtain ⟨hraw, hlen⟩ := (mem_of_schedule_eq_some h s).1 hs
  obtain ⟨hrun, hsub⟩ := schedule_t_root_sound 0 Tasks s hraw
  have hperm : (s.map (fun e => e.Task)).Perm Tasks :=
    hsub.perm_of_length_le (by simp [hlen])
  obtain ⟨e, he, heT⟩ := List.mem_map.1 (hperm.symm.subset hT)
  obtain ⟨t, ht, hv⟩ := validated_run_entry 0 s hrun e he
  rw [heT] at hv
  have hbound : max t T.s_arrival + T.s_cost < 2 ^ 32 := by
    rcases ht with rfl | ⟨e', he', rfl⟩
    · simpa using hw
    · have h1 := validated_run_finish_le 0 s hrun e' he'
      have h2 := hwd e'.Task (hperm.subset (List.mem_map.2 ⟨e', he', rfl⟩))
      rcases le_total e'.s_finish T.s_arrival with hle | hle
      · rw [max_eq_right hle]; exact hw
      · rw [max_eq_left hle]; omega
  have := (validate_iff_exact_of_no_wrap t T hbound).1 hv
  have := le_max_right t T.s_arrival
  omega

/-! ## The nodes of the search -/

/-- C15, as stated, fails: applied to no task the enumerator emits no
sequence; its output is not the collection of the one empty sequence. -/
theorem schedule_t_no_tasks_not_one_sequence :
    schedule_t 0 0 [] ≠ [[]] ∧ (schedule_t 0 0 []).length = 0 ∧
      schedule_t 7 3 [] ≠ [[]] := by
  simp [schedule_t_nil]

/-- C15, amended: for every time and every `Index` the enumerator applied to
no task emits the empty collection, no sequence at all; the sequence that ends
an ordering is emitted by the node with one task and `Index = 0`, and is that
task annotated at the time of the node. -/
theorem schedule_t_no_tasks (Time Index : Nat) :
    schedule_t Time Index [] = [] ∧
      ∀ TaskHead, schedule_t Time 0 [TaskHead] = [[task_validated Time TaskHead]] :=
  ⟨schedule_t_nil Time Index, fun TaskHead => schedule_t_zero_single Time TaskHead⟩

/-- The rotation reaches a task when the tasks in front of it and the task
itself are valid at the node's time: the task then heads every completion
that the enumerator finds for the other tasks, taken in the rotated order. -/
theorem schedule_t_rotation_mem : ∀ (k Time : Nat) (a : List task_t) (x : task_t)
    (b : List task_t), (∀ y ∈ a, validate_t.validate Time y = true) →
    validate_t.validate Time x = true → a.length < k →
    ∀ s' ∈ schedule_t (validate_t.finish Time x) (a.length + b.length) (b ++ a),
      task_validated Time x :: s' ∈ schedule_t Time k (a ++ x :: b)
  | 0, _, _, _, _, _, _, hk, _, _ => by omega
  | k + 1, Time, [], x, b, _, hx, _, s', hs' => by
    rw [List.nil_append, schedule_t_succ, if_pos hx, List.mem_append, mem_prepend_t]
    refine Or.inl ⟨s', ?_, rfl⟩
    simpa using hs'
  | k + 1, Time, h :: a', x, b, ha, hx, hk, s', hs' => by
    rw [List.cons_append, schedule_t_succ, if_pos (ha h (by simp)), List.mem_append]
    right
    rw [rotate_t_cons_of_ne_nil h (a' ++ x :: b) (by simp)]
    have e0 : a' ++ x :: b ++ [h] = a' ++ x :: (b ++ [h]) := by simp
    rw [e0]
    apply schedule_t_rotation_mem k Time a' x (b ++ [h])
      (fun y hy => ha y (List.mem_cons_of_mem _ hy)) hx (by simpa using hk)
    have e1 : a'.length + (b ++ [h]).length = (h :: a').length + b.length := by
      simp only [List.length_append, List.length_cons, List.length_nil]
      omega
    have e2 : b ++ [h] ++ a' = b ++ h :: a' := by simp
    rw [e1, e2]
    exact hs'

/-- C16, as stated, fails: at time 0 the second of two remaining tasks is
valid, but the head is not, the node's output is the lone dead marker, and no
sequence starts with the second task. -/
theorem schedule_t_invalid_head_hides_valid_task :
    short_task ∈ [hopeless_task, short_task] ∧ validate_t.validate 0 short_task = true ∧
      ¬ ∃ s ∈ schedule_t 0 [hopeless_task, short_task].length [hopeless_task, short_task],
        ∃ rest, s = task_validated 0 short_task :: rest := by
  refine ⟨by decide, by decide, ?_⟩
  simp [hopeless_task, short_task, schedule_t, validate_t.validate, validate_t.finish,
    validate_t.start]

/-- C16, amended: at a node searched with `Index` equal to the number of
remaining tasks, a remaining task that is valid at the node's time, with only
valid tasks in front of it in the remaining list, is the first element of a
sequence of the node's raw output. -/
theorem schedule_t_head_served (Time : Nat) (a : List task_t) (x : task_t) (b : List task_t)
    (ha : ∀ y ∈ a, validate_t.validate Time y = true)
    (hx : validate_t.validate Time x = true) :
    ∃ s ∈ schedule_t Time (a ++ x :: b).length (a ++ x :: b),
      ∃ rest, s = task_validated Time x :: rest := by
  by_cases hne : b ++ a = []
  · obtain ⟨hb, ha'⟩ := List.append_eq_nil.1 hne
    subst hb ha'
    refine ⟨[task_validated Time x], ?_, [], rfl⟩
    rw [List.nil_append, show ([x] : List task_t).length = 0 + 1 from rfl, schedule_t_succ,
      if_pos hx, show rotate_t [x] = [x] from rfl, schedule_t_zero_single]
    simp
  · obtain ⟨s', hs'⟩ := List.exists_mem_of_ne_nil _
      (schedule_t_root_ne_nil (b ++ a) (validate_t.finish Time x) hne)
    refine ⟨task_validated Time x :: s', ?_, s', rfl⟩
    apply schedule_t_rotation_mem _ Time a x b ha hx (by simp)
    have e : (b ++ a).length = a.length + b.length := by
      rw [List.length_append]; omega
    rw [← e]
    exact hs'

theorem schedule_t_head_served_witness :
    (∀ y ∈ [short_task], validate_t.validate 0 y = true) ∧
      validate_t.validate 0 late_task = true ∧
      ∃ s ∈ schedule_t 0 ([short_task] ++ late_task :: [hopeless_task]).length
          ([short_task] ++ late_task :: [hopeless_task]),
        ∃ rest, s = task_validated 0 late_task :: rest :=
  ⟨by decide, by decide,
    schedule_t_head_served 0 [short_task] late_task [hopeless_task] (by decide) (by decide)⟩

/-- The dead marker: a node with `Index > 0` whose head is not valid yields
exactly the one empty sequence. -/
theorem schedule_t_dead_marker (Time Index : Nat) (TaskHead : task_t) (TaskTail : List task_t)
    (h : validate_t.validate Time TaskHead = false) :
    schedule_t Time (Index + 1) (TaskHead :: TaskTail) = [[]] := by
  rw [schedule_t_succ, if_neg (by simp [h])]

/-- A sequence shorter than `Size` is in no result of the pruner, and the
pruner has a result on every collection of at least two sequences. -/
theorem prune_t_drops_short (Size : Nat) (Schedules : List (List task_schedule_t))
    (pre : List task_schedule_t) (hpre : pre.length < Size) :
    (∀ r, prune_t Size Schedules = some r → pre ∉ r) ∧
      (2 ≤ Schedules.length → ∃ r, prune_t Size Schedules = some r ∧ pre ∉ r) := by
  have key : ∀ r, prune_t Size Schedules = some r → pre ∉ r := by
    intro r hr hmem
    obtain ⟨_, rfl⟩ := (prune_t_eq_some_iff _ _ _).1 hr
    have := (List.mem_filter.1 hmem).2
    simp at this
    omega
  exact ⟨key, fun h2 => ⟨_, prune_t_of_two_le Size Schedules h2,
    key _ (prune_t_of_two_le Size Schedules h2)⟩⟩

/-- C17 at the failing input: at the root, with the empty prefix, the head
`{arrival=0, cost=5, deadline=4}` is not valid, the node's output is the one
empty sequence, shorter than the two tasks, and the pruner has no result on
it. -/
theorem dead_marker_at_root_not_pruned :
    validate_t.validate 0 hopeless_task = false ∧
      schedule_t 0 2 [hopeless_task, short_task] = [[]] ∧
      ([] : List task_schedule_t).length < [hopeless_task, short_task].length ∧
      prune_t 2 (schedule_t 0 2 [hopeless_task, short_task]) = none := by
  refine ⟨by decide, schedule_t_dead_marker 0 1 _ _ (by decide), by decide, ?_⟩
  rw [schedule_t_dead_marker 0 1 _ _ (by decide)]
  decide

/-! ## The annotations of the returned schedules -/

theorem schedule_wrapping_tasks :
    schedule [wrapping_task, short_task] = some wrapped_schedules := by
  simp [wrapped_schedules, wrapping_task, short_task, schedule, prune_t, schedule_t,
    concat_t, join_t, prepend_t, rotate_t, validate_t.validate, validate_t.finish,
    validate_t.start, task_validated]

/-- C18 at the failing input: for a task whose `start + cost` reaches `2 ^ 32`
followed by the task `{arrival=0, cost=1, deadline=3}`, `schedule` returns a
schedule with an entry whose finish, 0, is not its start plus its cost. -/
theorem schedule_wrapped_annotation :
    wrapping_task.is_uint32 ∧ short_task.is_uint32 ∧
      ∃ Schedules, schedule [wrapping_task, short_task] = some Schedules ∧
        ∃ Schedule ∈ Schedules, ∃ e ∈ Schedule,
          e.s_finish = 0 ∧ e.s_finish ≠ e.s_start + e.Task.s_cost :=
  ⟨by decide, by decide, wrapped_schedules, schedule_wrapping_tasks, wrapped_schedules[0],
    by decide, ⟨1, 0, wrapping_task⟩, by decide, by decide⟩

theorem validated_run_next : ∀ (Time : Nat) (s : List task_schedule_t),
    validated_run Time s → ∀ (i : Nat) (h : i + 1 < s.length),
      s[i + 1] = task_validated s[i].s_finish s[i + 1].Task
  | _, [], _, i, h => by simp at h
  | _, [_], _, i, h => by simp at h
  | Time, x :: y :: rest, ⟨_, _, hr⟩, 0, _ => hr.1
  | Time, x :: y :: rest, ⟨_, _, hr⟩, i + 1, h => by
    have h' : i + 1 < (y :: rest).length := by simpa using h
    exact validated_run_next _ (y :: rest) hr i h'

theorem validated_run_finish_eq : ∀ (Time : Nat) (s : List task_schedule_t),
    validated_run Time s → ∀ e ∈ s, e.s_finish = (e.s_start + e.Task.s_cost) % 2 ^ 32
  | _, [], _, e, he => by cases he
  | Time, x :: rest, ⟨hx, _, hr⟩, e, he => by
    rcases List.mem_cons.1 he with rfl | he
    · rw [hx]; rfl
    · exact validated_run_finish_eq _ rest hr e he

/-- The annotations of every returned schedule: the first entry starts at the
arrival of its task, every later entry starts at the larger of its arrival
and the finish of the entry before it, and every finish is the start plus the
cost modulo `2 ^ 32`, hence the exact sum when that is below `2 ^ 32`. -/
theorem schedule_asap (Tasks : List task_t) (Schedules : List (List task_schedule_t))
    (h : schedule Tasks = some Schedules) (Schedule : List task_schedule_t)
    (hs : Schedule ∈ Schedules) :
    (∀ (h0 : 0 < Schedule.length),
        Schedule[0].s_start = max 0 Schedule[0].Task.s_arrival ∧
          Schedule[0].s_start = Schedule[0].Task.s_arrival) ∧
      (∀ (i : Nat) (hi : i + 1 < Schedule.length),
        Schedule[i + 1].s_start = max Schedule[i].s_finish Schedule[i + 1].Task.s_arrival) ∧
      (∀ e ∈ Schedule, e.s_finish = (e.s_start + e.Task.s_cost) % 2 ^ 32 ∧
        (e.s_start + e.Task.s_cost < 2 ^ 32 → e.s_finish = e.s_start + e.Task.s_cost)) := by
  obtain ⟨hraw, _⟩ := (mem_of_schedule_eq_some h Schedule).1 hs
  have hrun := (schedule_t_root_sound 0 Tasks Schedule hraw).1
  refine ⟨fun h0 => ?_, fun i hi => ?_, fun e he => ?_⟩
  · match Schedule, hrun, h0 with
    | x :: rest, ⟨hx, _, _⟩, _ =>
      show x.s_start = max 0 x.Task.s_arrival ∧ x.s_start = x.Task.s_arrival
      rw [hx]
      simp [task_validated, validate_t_start_eq_max]
  · rw [validated_run_next 0 Schedule hrun i hi]
    simp [task_validated, validate_t_start_eq_max]
  · have := validated_run_finish_eq 0 Schedule hrun e he
    exact ⟨this, fun hlt => by rw [this, Nat.mod_eq_of_lt hlt]⟩

/-- A validated run over tasks of a list without wrap-around, from time 0 or
from a time that is at most the deadline of a task of the list, is the
simulation of its ordering in unbounded arithmetic, and that ordering is
feasible. -/
theorem validated_run_eq_simulate (Tasks : List task_t) (hnw : no_wrap Tasks) :
    ∀ (s : List task_schedule_t) (Time : Nat), validated_run Time s →
      (∀ e ∈ s, e.Task ∈ Tasks) → (Time = 0 ∨ ∃ U ∈ Tasks, Time ≤ U.s_deadline) →
      s = simulate Time (s.map (fun e => e.Task)) ∧ feasible Time (s.map (fun e => e.Task))
  | [], _, _, _, _ => ⟨rfl, by intro e he; cases he⟩
  | x :: rest, Time, ⟨hx, hv, hr⟩, hmem, hT => by
    have hxT : x.Task ∈ Tasks := hmem x (by simp)
    obtain ⟨h1, h2⟩ := hnw x.Task hxT
    have hbound : max Time x.Task.s_arrival + x.Task.s_cost < 2 ^ 32 := by
      rcases hT with rfl | ⟨U, hU, hle⟩
      · simpa using h1
      · have := h2 U hU
        rcases le_total Time x.Task.s_arrival with hle' | hle'
        · rw [max_eq_right hle']; exact h1
        · rw [max_eq_left hle']; omega
    have hexact := (validate_iff_exact_of_no_wrap Time x.Task hbound).1 hv
    have hd : x.Task.s_deadline < 2 ^ 32 := by
      have := h2 x.Task hxT
      omega
    obtain ⟨hfin, htv⟩ := task_validated_of_exact Time x.Task hexact hd
    have hxf : x.s_finish = max Time x.Task.s_arrival + x.Task.s_cost := by
      rw [hx]; exact hfin
    obtain ⟨ih1, ih2⟩ := validated_run_eq_simulate Tasks hnw rest x.s_finish hr
      (fun e he => hmem e (List.mem_cons_of_mem _ he))
      (Or.inr ⟨x.Task, hxT, by rw [hxf]; exact hexact⟩)
    rw [hxf] at ih1 ih2
    refine ⟨?_, ?_⟩
    · rw [List.map_cons, simulate, ← ih1, ← htv, ← hx]
    · rw [List.map_cons, feasible_cons]
      exact ⟨hexact, ih2⟩

/-! ## No ordering is emitted twice -/

/-- A non-empty sequence of the raw output of a node starts with one of the
first `Index` remaining tasks. -/
theorem schedule_t_head_mem_take (Time Index : Nat) (Tuple : List task_t) :
    Index ≤ Tuple.length → (Index ≠ 0 ∨ Tuple.length ≠ 1) →
      ∀ s ∈ schedule_t Time Index Tuple, ∀ e rest, s = e :: rest →
        e.Task ∈ Tuple.take Index := by
  induction Time, Index, Tuple using schedule_t.induct with
  | case1 Time Index => intro _ _ s hs; rw [schedule_t_nil] at hs; cases hs
  | case2 Time TaskHead => intro _ h; simp at h
  | case3 Time a b l => intro _ _ s hs; rw [schedule_t_zero_cons_cons] at hs; cases hs
  | case4 Time Index TaskHead TaskTail hv _ ih2 =>
    intro hle _ s hs e rest hse
    rw [schedule_t_succ, if_pos hv, List.mem_append, mem_prepend_t] at hs
    rcases hs with ⟨s', _, rfl⟩ | hs
    · rw [List.cons.injEq] at hse
      rw [← hse.1]
      simp [task_validated]
    · match Index, TaskTail, hs, ih2, hle with
      | 0, [], hs, _, _ =>
        rw [show rotate_t [TaskHead] = [TaskHead] from rfl, schedule_t_zero_single,
          List.mem_singleton] at hs
        rw [hs, List.cons.injEq] at hse
        rw [← hse.1]
        simp [task_validated]
      | 0, b :: l, hs, _, _ =>
        rw [rotate_t_cons_cons] at hs
        cases hl : l ++ [TaskHead] with
        | nil => simp at hl
        | cons c l' =>
          rw [List.cons_append, hl, schedule_t_zero_cons_cons] at hs
          cases hs
      | Index + 1, TaskTail, hs, ih2, hle =>
        have hlen : Index + 1 ≤ TaskTail.length := by simpa using hle
        have hne : TaskTail ≠ [] := by
          intro h0; rw [h0] at hlen; simp at hlen
        have := ih2 (by rw [rotate_t_length]; simp; omega) (Or.inl (by omega)) s hs e rest hse
        rw [rotate_t_cons_of_ne_nil TaskHead TaskTail hne,
          List.take_append_of_le_length hlen] at this
        rw [List.take_succ_cons]
        exact List.mem_cons_of_mem _ this
  | case5 Time Index TaskHead TaskTail hv _ _ =>
    intro _ _ s hs e rest hse
    rw [schedule_t_succ, if_neg hv, List.mem_singleton] at hs
    rw [hs] at hse
    cases hse

theorem map_prepend_t_tasks (Time : Nat) (TaskHead : task_t)
    (F : List (List task_schedule_t)) :
    (prepend_t (task_validated Time TaskHead) F).map (List.map (fun e => e.Task)) =
      (F.map (List.map (fun e => e.Task))).map (List.cons TaskHead) := by
  simp [prepend_t, join_t, task_validated]

/-- For pairwise distinct remaining tasks, the orderings of the sequences of
the raw output of a node are pairwise distinct. -/
theorem schedule_t_nodup (Time Index : Nat) (Tuple : List task_t) :
    Tuple.Nodup → Index ≤ Tuple.length →
      ((schedule_t Time Index Tuple).map (List.map (fun e => e.Task))).Nodup := by
  induction Time, Index, Tuple using schedule_t.induct with
  | case1 Time Index => intro _ _; rw [schedule_t_nil]; exact List.nodup_nil
  | case2 Time TaskHead => intro _ _; rw [schedule_t_zero_single]; simp
  | case3 Time a b l => intro _ _; rw [schedule_t_zero_cons_cons]; exact List.nodup_nil
  | case4 Time Index TaskHead TaskTail hv ih1 ih2 =>
    intro hnd hle
    have hnd' := List.nodup_cons.1 hnd
    have hIdx : Index ≤ TaskTail.length := by simpa using hle
    rw [schedule_t_succ, if_pos hv, List.map_append, map_prepend_t_tasks]
    refine List.Nodup.append ?_ ?_ ?_
    · exact (ih1 hnd'.2 (le_refl _)).map (List.cons_injective)
    · exact ih2 ((rotate_t_perm _).nodup_iff.2 hnd) (by rw [rotate_t_length]; simp; omega)
    · intro o ho1 ho2
      obtain ⟨o', ho', rfl⟩ := List.mem_map.1 ho1
      obtain ⟨s, hs, hso⟩ := List.mem_map.1 ho2
      match Index, TaskTail, hs, hIdx, ho', hnd' with
      | 0, [], _, _, ho', _ =>
        rw [List.length_nil, schedule_t_nil] at ho'
        simp at ho'
      | 0, b :: l, hs, _, _, _ =>
        rw [rotate_t_cons_cons] at hs
        cases hl : l ++ [TaskHead] with
        | nil => simp at hl
        | cons c l' =>
          rw [List.cons_append, hl, schedule_t_zero_cons_cons] at hs
          cases hs
      | Index + 1, TaskTail, hs, hIdx, _, hnd' =>
        have hne : TaskTail ≠ [] := by
          intro h0; rw [h0] at hIdx; simp at hIdx
        cases s with
        | nil => simp at hso
        | cons e rest =>
          have hmem := schedule_t_head_mem_take Time (Index + 1) _
            (by rw [rotate_t_length]; simp; omega) (Or.inl (by omega)) _ hs e rest rfl
          rw [rotate_t_cons_of_ne_nil TaskHead TaskTail hne,
            List.take_append_of_le_length hIdx] at hmem
          rw [List.map_cons, List.cons.injEq] at hso
          rw [hso.1] at hmem
          exact hnd'.1 (List.mem_of_mem_take hmem)
  | case5 Time Index TaskHead TaskTail hv _ _ =>
    intro _ _
    rw [schedule_t_succ, if_neg hv]
    simp

theorem schedule_mem_perm {Tasks : List task_t} {Schedules : List (List task_schedule_t)}
    (h : schedule Tasks = some Schedules) (s : List task_schedule_t) (hs : s ∈ Schedules) :
    (s.map (fun e => e.Task)).Perm Tasks := by
  obtain ⟨hraw, hlen⟩ := (mem_of_schedule_eq_some h s).1 hs
  exact (schedule_t_root_sound 0 Tasks s hraw).2.perm_of_length_le (by simp [hlen])

/-- For pairwise distinct tasks the schedules that `schedule` returns are
pairwise distinct as orderings, and there are at most `n!` of them. -/
theorem schedule_orderings_nodup (Tasks : List task_t)
    (Schedules : List (List task_schedule_t)) (hnd : Tasks.Nodup)
    (h : schedule Tasks = some Schedules) :
    (Schedules.map (List.map (fun e => e.Task))).Nodup ∧
      Schedules.length ≤ Tasks.length.factorial := by
  have hraw := schedule_t_nodup 0 Tasks.length Tasks hnd (le_refl _)
  have hS : Schedules = (schedule_t 0 Tasks.length Tasks).filter
      (fun Schedule => decide (Schedule.length = Tasks.length)) := by
    unfold schedule at h
    exact ((prune_t_eq_some_iff _ _ _).1 h).2
  have hnodup : (Schedules.map (List.map (fun e => e.Task))).Nodup := by
    rw [hS]
    exact hraw.sublist ((List.filter_sublist _).map _)
  refine ⟨hnodup, ?_⟩
  have hsub : Schedules.map (List.map (fun e => e.Task)) ⊆ Tasks.permutations := by
    intro o ho
    obtain ⟨s, hs, rfl⟩ := List.mem_map.1 ho
    exact List.mem_permutations.2 (schedule_mem_perm h s hs)
  have := (List.subperm_of_subset hnodup hsub).length_le
  rwa [List.length_map, List.length_permutations] at this

theorem simulate_tasks : ∀ (p : List task_t) (Time : Nat),
    (simulate Time p).map (fun e => e.Task) = p
  | [], _ => rfl
  | x :: p, Time => by simp [simulate, simulate_tasks p]

/-- For pairwise distinct tasks without wrap-around, the number of schedules
that `schedule` returns is the number of orderings of the input that are
feasible from time 0. -/
theorem schedule_count_eq_feasible (Tasks : List task_t)
    (Schedules : List (List task_schedule_t)) (hnd : Tasks.Nodup) (hnw : no_wrap Tasks)
    (h : schedule Tasks = some Schedules) :
    Schedules.length = (feasible_orderings Tasks).length := by
  have hnodup := (schedule_orderings_nodup Tasks Schedules hnd h).1
  have hn2 : (feasible_orderings Tasks).Nodup :=
    (List.nodup_permutations Tasks hnd).filter _
  have h2 : 2 ≤ Tasks.length := by
    by_contra hc
    have := (schedule_eq_none_iff Tasks).2 (Or.inl (by omega))
    rw [h] at this
    cases this
  have hd : ∀ T ∈ Tasks, T.s_deadline < 2 ^ 32 := fun T hT => by
    have := (hnw T hT).2 T hT
    omega
  have hperm : (Schedules.map (List.map (fun e => e.Task))).Perm (feasible_orderings Tasks) := by
    refine (List.perm_ext_iff_of_nodup hnodup hn2).2 (fun o => ⟨fun ho => ?_, fun ho => ?_⟩)
    · obtain ⟨s, hs, rfl⟩ := List.mem_map.1 ho
      have hp := schedule_mem_perm h s hs
      obtain ⟨hraw, _⟩ := (mem_of_schedule_eq_some h s).1 hs
      have hrun := (schedule_t_root_sound 0 Tasks s hraw).1
      have hfe := (validated_run_eq_simulate Tasks hnw s 0 hrun
        (fun e he => hp.subset (List.mem_map.2 ⟨e, he, rfl⟩)) (Or.inl rfl)).2
      exact List.mem_filter.2 ⟨List.mem_permutations.2 hp, by simpa using hfe⟩
    · obtain ⟨hp, hfe⟩ := List.mem_filter.1 ho
      have hfe' : feasible 0 o := by simpa using hfe
      obtain ⟨S', hS', hmem⟩ := schedule_complete Tasks o h2 hd (List.mem_permutations.1 hp) hfe'
      rw [h] at hS'
      cases hS'
      exact List.mem_map.2 ⟨_, hmem, simulate_tasks o 0⟩
  simpa using hperm.length_eq

/-- C19 at the failing input: the two tasks are distinct and no ordering of
them is feasible from time 0, since the first cannot finish by its deadline
at any time, yet `schedule` returns two schedules. -/
theorem schedule_count_exceeds_feasible :
    [wrapping_task, short_task].Nodup ∧
      (∀ p : List task_t, p.Perm [wrapping_task, short_task] → ¬ feasible 0 p) ∧
      (feasible_orderings [wrapping_task, short_task]).length = 0 ∧
      ∃ Schedules, schedule [wrapping_task, short_task] = some Schedules ∧
        Schedules.length = 2 := by
  have hno : ∀ p : List task_t, p.Perm [wrapping_task, short_task] → ¬ feasible 0 p := by
    intro p hp hf
    have := feasible_each_first p 0 hf wrapping_task (hp.symm.subset (by simp))
    revert this
    decide
  refine ⟨by decide, hno, ?_, wrapped_schedules, schedule_wrapping_tasks, by decide⟩
  rw [List.length_eq_zero]
  apply List.eq_nil_iff_forall_not_mem.2
  intro p hp
  obtain ⟨hp1, hp2⟩ := List.mem_filter.1 hp
  exact hno p (List.mem_permutations.1 hp1) (by simpa using hp2)

/-! ## The first schedule -/

/-- When the remaining tasks are feasible in their own order, the first
sequence of the raw output at the root of the search is that order. -/
theorem schedule_t_first_of_feasible : ∀ (Tuple : List task_t) (Time : Nat), Tuple ≠ [] →
    (∀ T ∈ Tuple, T.s_deadline < 2 ^ 32) → feasible Time Tuple →
    ∃ rest, schedule_t Time Tuple.length Tuple = simulate Time Tuple :: rest
  | [], _, h, _, _ => absurd rfl h
  | [x], Time, _, hd, hf => by
    obtain ⟨hx, _⟩ := (feasible_cons Time x []).1 hf
    obtain ⟨_, htv⟩ := task_validated_of_exact Time x hx (hd x (by simp))
    refine ⟨[], ?_⟩
    rw [show ([x] : List task_t).length = 0 + 1 from rfl, schedule_t_succ,
      if_pos (validate_of_exact Time x hx), show rotate_t [x] = [x] from rfl,
      schedule_t_zero_single, htv]
    simp [simulate, schedule_t_nil, prepend_t]
  | x :: y :: l, Time, _, hd, hf => by
    obtain ⟨hx, hrest⟩ := (feasible_cons Time x (y :: l)).1 hf
    obtain ⟨hfin, htv⟩ := task_validated_of_exact Time x hx (hd x (by simp))
    obtain ⟨rest', hr'⟩ := schedule_t_first_of_feasible (y :: l)
      (max Time x.s_arrival + x.s_cost) (by simp)
      (fun T hT => hd T (List.mem_cons_of_mem _ hT)) hrest
    refine ⟨prepend_t (task_validated Time x) rest' ++
      schedule_t Time (y :: l).length (rotate_t (x :: y :: l)), ?_⟩
    rw [List.length_cons, schedule_t_succ, if_pos (validate_of_exact Time x hx), hfin, hr',
      htv]
    simp [simulate, prepend_t, join_t]

/-- For at least two tasks that are feasible in the order given, the first
schedule that `schedule` returns is that order. -/
theorem schedule_first_is_input_order (Tasks : List task_t) (h2 : 2 ≤ Tasks.length)
    (hd : ∀ T ∈ Tasks, T.s_deadline < 2 ^ 32) (hf : feasible 0 Tasks) :
    ∃ rest, schedule Tasks = some (simulate 0 Tasks :: rest) := by
  match Tasks, h2, hd, hf with
  | a :: b :: l, _, hd, hf =>
    obtain ⟨rest', hr'⟩ := schedule_t_first_of_feasible (a :: b :: l) 0 (by simp) hd hf
    have hv : validate_t.validate 0 a = true :=
      validate_of_exact 0 a (feasible_each_first _ 0 hf a (by simp))
    have hsome := prune_t_of_two_le (a :: b :: l).length _ (schedule_t_root_two_le 0 a b l hv)
    refine ⟨rest'.filter (fun Schedule => decide (Schedule.length = (a :: b :: l).length)), ?_⟩
    unfold schedule
    rw [hsome, hr', List.filter_cons_of_pos]
    simp [simulate_length]

theorem schedule_first_is_input_order_main :
    ∃ rest, schedule [⟨4, 0, 2, 4⟩, ⟨2, 1, 1, 5⟩, ⟨3, 1, 2, 6⟩, ⟨1, 4, 2, 7⟩] =
      some (simulate 0 [⟨4, 0, 2, 4⟩, ⟨2, 1, 1, 5⟩, ⟨3, 1, 2, 6⟩, ⟨1, 4, 2, 7⟩] :: rest) :=
  schedule_first_is_input_order _ (by decide) (by decide) (by decide)

/-- C20 at the failing input: the single task `{arrival=0, cost=2, deadline=4}`
is feasible in the order given, and `schedule` has no result, hence no first
schedule. -/
theorem schedule_single_feasible_no_first :
    feasible 0 [⟨4, 0, 2, 4⟩] ∧ schedule_t 0 1 [⟨4, 0, 2, 4⟩] = [simulate 0 [⟨4, 0, 2, 4⟩]] ∧
      schedule [⟨4, 0, 2, 4⟩] = none := by
  refine ⟨by decide, ?_, ?_⟩ <;>
  simp [schedule, prune_t, schedule_t, concat_t, join_t, prepend_t, rotate_t,
    validate_t.validate, validate_t.finish, validate_t.start, task_validated, simulate]

end bratley
